import Mathlib

/-!
Verification development for a personal expense-tracking web application.

The embedding below translates the program's data model and the relevant
functions into Lean: the privileged user-deletion HTTP handlers, the admin
user reconciliation, the expense fetch (date-range and search filtering),
the derived aggregates (total, count, highest, average, per-category and
per-month sums), the CSV export field quoting, and the admin result
ordering.  Amounts are embedded as exact rationals and timestamps as epoch
milliseconds; environment-dependent primitives (local calendar extraction,
locale date formatting, number formatting) are passed in explicitly as
record fields.
-/

namespace ExpensesTracker

/-! ## Data model -/

/-- An expense record (table `expenses__expenses`).  `amount` is embedded as
an exact rational and `created_at` as epoch milliseconds. -/
structure Expense where
  id : String
  email : String
  description : String
  amount : ℚ
  category : String
  created_at : Int
deriving Repr, DecidableEq

/-- A row of the `expenses_profiles` table.  Nullable string columns are
`Option String`. -/
structure Profile where
  id : String
  email : Option String
  fullname : Option String
  created_at : Option String
deriving Repr, DecidableEq

/-- An authoritative identity record as returned by the identity provider's
admin listing. -/
structure AuthUser where
  id : String
  email : Option String
  email_confirmed_at : Option String
  confirmed_at : Option String
deriving Repr, DecidableEq

/-- JS truthiness of a nullable string value: `null`/`undefined` and the
empty string are falsy. -/
def isTruthy : Option String → Bool
  | none => false
  | some s => s != ""

/-- Character-wise lowercasing, the embedding of JS `toLowerCase()`. -/
def lowerStr (s : String) : String := ⟨s.data.map Char.toLower⟩

/-- Embedding of JS `trim()`: drop whitespace from both ends. -/
def jsTrim (s : String) : String :=
  ⟨((s.data.dropWhile Char.isWhitespace).reverse.dropWhile
      Char.isWhitespace).reverse⟩

/-! ## Privileged delete-user handlers

Two variants exist in the repository: the Deno serverless function
`supabase/functions/delete-user.ts` and the deployed Vercel function
`api/delete-user.ts`.  Both follow the same flow: identity deletion first,
then profile-row deletion, aborting (via `throw`) when the first fails.
The backend outcome of each privileged call is supplied as data, and the
handler result records the response, the resulting profile table, and the
ordered trace of privileged actions attempted. -/

/-- A privileged backend action attempted by a delete-user handler. -/
inductive AdminAction where
  | authDelete (id : String)
  | profileDelete (id : String)
deriving Repr, DecidableEq

/-- The JSON response envelope `{success, error?}`. -/
structure RespBody where
  success : Bool
  error : Option String
deriving Repr, DecidableEq

/-- Result of running a delete-user handler: HTTP status, response envelope
(`none` for the body-less 204 preflight reply), the profile table after the
call, and the privileged actions attempted in order. -/
structure HttpResult where
  status : Nat
  body : Option RespBody
  profiles : List Profile
  actions : List AdminAction
deriving Repr, DecidableEq

/-- Backend state and simulated outcomes for one delete-user invocation:
the error (if any) returned by the identity deletion, the error (if any)
returned by the profile-row deletion, and the current profile table. -/
structure DeleteBackend where
  authDeleteError : Option String
  tableDeleteError : Option String
  profiles : List Profile
deriving Repr, DecidableEq

/-- The parsed JSON request body `{id?}`. -/
structure DeleteReqBody where
  id : Option String
deriving Repr, DecidableEq

/-- The JS falsiness test `!userId`: absent or empty ids are rejected. -/
def idFalsy : Option String → Bool
  | none => true
  | some s => s == ""

/-- Shallow embedding of the `serve` handler in
`supabase/functions/delete-user.ts`.  `body` is the outcome of
`req.json()` (`Except.error` when parsing throws).  Note the `catch`
branch builds its `Response` without a `status` field, so those replies
carry the default status 200. -/
def deleteUserServe (method : String) (body : Except String DeleteReqBody)
    (b : DeleteBackend) : HttpResult :=
  if method == "OPTIONS" then
    ⟨204, none, b.profiles, []⟩
  else if method != "POST" then
    ⟨405, some ⟨false, some "Method not allowed"⟩, b.profiles, []⟩
  else
    match body with
    | .error msg => ⟨200, some ⟨false, some msg⟩, b.profiles, []⟩
    | .ok rb =>
      if idFalsy rb.id then
        ⟨400, some ⟨false, some "User ID is required"⟩, b.profiles, []⟩
      else
        let userId := rb.id.getD ""
        match b.authDeleteError with
        | some msg =>
          ⟨200, some ⟨false, some msg⟩, b.profiles, [.authDelete userId]⟩
        | none =>
          match b.tableDeleteError with
          | some msg =>
            ⟨200, some ⟨false, some msg⟩, b.profiles,
              [.authDelete userId, .profileDelete userId]⟩
          | none =>
            ⟨200, some ⟨true, none⟩, b.profiles.filter (fun p => p.id != userId),
              [.authDelete userId, .profileDelete userId]⟩

/-- Shallow embedding of the deployed handler in `api/delete-user.ts` (the
variant the deployed admin screen's `/api` base URL targets).  Identical
flow, but every failure thrown inside the `try` block is answered with an
explicit status 500, and a missing request body is replaced by `{}` (so its
`id` is absent). -/
def apiDeleteUser (method : String) (body : Option DeleteReqBody)
    (b : DeleteBackend) : HttpResult :=
  if method == "OPTIONS" then
    ⟨204, none, b.profiles, []⟩
  else if method != "POST" then
    ⟨405, some ⟨false, some "Method not allowed"⟩, b.profiles, []⟩
  else
    let rb := body.getD ⟨none⟩
    if idFalsy rb.id then
      ⟨400, some ⟨false, some "User ID is required"⟩, b.profiles, []⟩
    else
      let userId := rb.id.getD ""
      match b.authDeleteError with
      | some msg =>
        ⟨500, some ⟨false, some msg⟩, b.profiles, [.authDelete userId]⟩
      | none =>
        match b.tableDeleteError with
        | some msg =>
          ⟨500, some ⟨false, some msg⟩, b.profiles,
            [.authDelete userId, .profileDelete userId]⟩
        | none =>
          ⟨200, some ⟨true, none⟩, b.profiles.filter (fun p => p.id != userId),
            [.authDelete userId, .profileDelete userId]⟩

/-! ## Admin user reconciliation (`list-users`) -/

/-- The per-pair match tried inside `authUsers.some(...)` in `list-users`:
the authoritative record must be confirmed (either confirmation column
truthy) and match the profile by id or by case-insensitive email (both
emails must be present strings). -/
def confirmedMatch (a : AuthUser) (p : Profile) : Bool :=
  let sameId := a.id == p.id
  let sameEmail :=
    match a.email, p.email with
    | some ae, some pe => lowerStr ae == lowerStr pe
    | _, _ => false
  let confirmed := isTruthy a.email_confirmed_at || isTruthy a.confirmed_at
  confirmed && (sameId || sameEmail)

/-- `confirmedUsers` from `list-users`: keep each profile row for which
some authoritative record passes `confirmedMatch`. -/
def confirmedUsers (authUsers : List AuthUser) (profiles : List Profile) :
    List Profile :=
  profiles.filter (fun p => authUsers.any (fun a => confirmedMatch a p))

/-- Modelled from the spec's words, for comparison with `confirmedUsers`:
keep a profile iff some authoritative record matches it (identifiers equal,
or emails equal case-insensitively) and carries a confirmation
timestamp. -/
def specKeepsProfile (authUsers : List AuthUser) (p : Profile) : Prop :=
  ∃ a ∈ authUsers,
    (a.id = p.id ∨
      ∃ ae pe, a.email = some ae ∧ p.email = some pe ∧
        lowerStr ae = lowerStr pe)
    ∧ ((∃ t, a.email_confirmed_at = some t ∧ t ≠ "")
        ∨ (∃ t, a.confirmed_at = some t ∧ t ≠ ""))

/-! ## Derived aggregates (`Dashboard.tsx`) -/

/-- `totalAmount`: `expenses.reduce((s, e) => s + e.amount, 0)`. -/
def totalAmount (expenses : List Expense) : ℚ :=
  expenses.foldl (fun s e => s + e.amount) 0

/-- `count`: `expenses.length`. -/
def count (expenses : List Expense) : Nat := expenses.length

/-- `highest`: `expenses.length === 0 ? 0 : Math.max(...expenses.map(e =>
e.amount))` — zero on the empty sequence, else the maximum amount. -/
def highest : List Expense → ℚ
  | [] => 0
  | e :: rest => (rest.map (fun x => x.amount)).foldl max e.amount

/-- `avg`: `count === 0 ? 0 : totalAmount / count`. -/
def avg (expenses : List Expense) : ℚ :=
  if count expenses = 0 then 0 else totalAmount expenses / (count expenses : ℚ)

/-- One step of the accumulating pass `map[k] = (map[k] || 0) + v` over a
JS object, embedded as an insertion-ordered association list: add to the
entry for `k` when present, else append a new entry. -/
def updateMap (m : List (String × ℚ)) (k : String) (v : ℚ) :
    List (String × ℚ) :=
  match m with
  | [] => [(k, v)]
  | (k', v') :: rest =>
    if k' = k then (k', v' + v) :: rest else (k', v') :: updateMap rest k v

/-- The per-category totals object built by the `categoryData` pass:
`for (const e of expenses) map[e.category] = (map[e.category] || 0) +
e.amount`. -/
def categoryMap (expenses : List Expense) : List (String × ℚ) :=
  expenses.foldl (fun m e => updateMap m e.category e.amount) []

/-- Sum of the values of a totals object:
`reduce((s, p) => s + p.value, 0)`. -/
def sumValues (m : List (String × ℚ)) : ℚ :=
  m.foldl (fun s p => s + p.2) 0

/-! ## Admin result ordering (`Admin.tsx`, server-proxied variant) -/

/-- The sort key of `fetchUsers`:
`a.created_at ? new Date(a.created_at).getTime() : 0`.  `parseMs` is the
environment's `Date`-string parser; a missing (or falsy empty) timestamp is
replaced by epoch zero. -/
def userSortKey (parseMs : String → Int) (p : Profile) : Int :=
  match p.created_at with
  | some s => if s = "" then 0 else parseMs s
  | none => 0

/-- The sort in `fetchUsers`: `users.sort((a, b) => dateB - dateA)`, a
stable sort that puts larger keys (newer profiles) first. -/
def sortUsers (parseMs : String → Int) (users : List Profile) :
    List Profile :=
  users.mergeSort
    (fun a b => decide (userSortKey parseMs b ≤ userSortKey parseMs a))

/-! ## Expense fetch: date-range policy and free-text search

Embedding of `fetchExpenses` from the dashboard variant with explicit
date-range and search support.  The backend query is modelled as a filter
(equality on the owner email plus the accumulated `gte`/`lte` bounds on
`created_at`) followed by the descending `order` on `created_at`; the
client-side search filter then runs over the rows.  Environment-dependent
pieces — "now", today's and the current month's local start, JS number and
locale date formatting — are fields of `DashEnv`.  An explicit start (resp.
end) date input is given as the epoch-ms value of that day's local
00:00:00; the handler turns the end day into an inclusive 23:59:59.999
bound by adding 86399999 ms. -/

/-- Environment of the dashboard fetch. -/
structure DashEnv where
  nowMs : Int
  todayStartMs : Int
  monthStartMs : Int
  fmtAmount : ℚ → String
  fmtDate : Int → String

/-- The named date-filter modes. -/
inductive FilterMode where
  | today | week | month | all
deriving Repr, DecidableEq

/-- JS `String.prototype.includes`: substring containment. -/
def includesStr (s t : String) : Bool := decide (t.data <:+: s.data)

/-- The per-expense search predicate: case-insensitive substring match of
the trimmed term against description, category, stringified amount, or the
formatted date. -/
def matchesSearch (env : DashEnv) (searchTerm : String) (e : Expense) :
    Bool :=
  let term := lowerStr (jsTrim searchTerm)
  let desc := lowerStr e.description
  let cat := lowerStr e.category
  let amt := env.fmtAmount e.amount
  let dateStr := lowerStr (env.fmtDate e.created_at)
  includesStr desc term || includesStr cat term || includesStr amt term ||
    includesStr dateStr term

/-- The lower `created_at` bound accumulated on the query: the explicit
start date when an explicit range is present, else the named mode's start
(none for `all`). -/
def lowerBoundMs (env : DashEnv) (filter : FilterMode)
    (startDay endDay : Option Int) : Option Int :=
  if startDay.isSome || endDay.isSome then startDay
  else
    match filter with
    | .today => some env.todayStartMs
    | .week => some (env.nowMs - 7 * 86400000)
    | .month => some env.monthStartMs
    | .all => none

/-- The upper `created_at` bound accumulated on the query: the explicit
end day's 23:59:59.999 when an explicit range is present, else only mode
`today` sets one. -/
def upperBoundMs (env : DashEnv) (filter : FilterMode)
    (startDay endDay : Option Int) : Option Int :=
  if startDay.isSome || endDay.isSome then
    endDay.map (fun d => d + 86399999)
  else
    match filter with
    | .today => some (env.todayStartMs + 86399999)
    | _ => none

/-- Conjunction of the optional `gte`/`lte` bounds on a timestamp. -/
def inRange (lower upper : Option Int) (t : Int) : Bool :=
  (match lower with
    | some l => decide (l ≤ t)
    | none => true)
  && (match upper with
    | some u => decide (t ≤ u)
    | none => true)

/-- The client-side search step: the filter runs only when the term is
non-empty and its trim is non-empty (`searchTerm && searchTerm.trim() !==
""`); otherwise the fetched rows pass through unchanged. -/
def searchStep (env : DashEnv) (searchTerm : String)
    (results : List Expense) : List Expense :=
  if searchTerm ≠ "" ∧ jsTrim searchTerm ≠ "" then
    results.filter (matchesSearch env searchTerm)
  else results

/-- `fetchExpenses`: owner-scoped query with date bounds and descending
`created_at` order, then the search step. -/
def fetchExpenses (env : DashEnv) (email : String) (filter : FilterMode)
    (startDay endDay : Option Int) (searchTerm : String)
    (table : List Expense) : List Expense :=
  let lower := lowerBoundMs env filter startDay endDay
  let upper := upperBoundMs env filter startDay endDay
  let rows :=
    (table.filter
        (fun e => e.email == email && inRange lower upper e.created_at)).mergeSort
      (fun a b => decide (b.created_at ≤ a.created_at))
  searchStep env searchTerm rows

/-! ## CSV export (`exportCSV` in `Dashboard.tsx`) -/

/-- The global replacement of `"` by `""` performed by
`e.description.replace(/"/g, '""')`. -/
def escQuotes : List Char → List Char
  | [] => []
  | c :: rest =>
    if c = '"' then '"' :: '"' :: escQuotes rest else c :: escQuotes rest

/-- The description cell of a CSV row: the description wrapped in double
quotes with embedded double quotes doubled. -/
def csvDescField (desc : String) : String :=
  ⟨'"' :: (escQuotes desc.data ++ ['"'])⟩

/-- One exported CSV row: quoted description, stringified amount, category,
locale-formatted date. -/
def csvRow (env : DashEnv) (e : Expense) : List String :=
  [csvDescField e.description, env.fmtAmount e.amount, e.category,
    env.fmtDate e.created_at]

/-- Standard CSV re-parsing of the remainder of a quoted field: a doubled
double quote denotes a literal `"`, a single closing double quote must end
the input, and an unterminated field fails. -/
def csvUnquoteBody : List Char → Option (List Char)
  | [] => none
  | c :: rest =>
    if c = '"' then
      match rest with
      | [] => some []
      | c' :: rest' =>
        if c' = '"' then (csvUnquoteBody rest').map (fun t => '"' :: t)
        else none
    else (csvUnquoteBody rest).map (fun t => c :: t)

/-- Standard CSV parsing of one whole quoted field: an opening double
quote, then the quoted body. -/
def csvUnquote (s : String) : Option String :=
  match s.data with
  | c :: rest => if c = '"' then (csvUnquoteBody rest).map List.asString
                 else none
  | [] => none

/-! ## Monthly totals (`monthlyData` in `Dashboard.tsx`)

The month key is
`` `${d.getFullYear()}-${String(d.getMonth() + 1).padStart(2, "0")}` ``.
JS decimal rendering of a natural number is embedded as the base-10 digit
expansion; the local calendar extraction (`getFullYear`, zero-based
`getMonth`) is environment data. -/

/-- Fuel-driven base-10 digit expansion (least significant digit first);
with fuel at least `n` it agrees with `Nat.digits 10 n` and, unlike it,
evaluates inside the kernel. -/
def decDigitsAux : Nat → Nat → List Nat
  | _, 0 => []
  | 0, _ + 1 => []
  | fuel + 1, n + 1 => (n + 1) % 10 :: decDigitsAux fuel ((n + 1) / 10)

/-- Base-10 digits of `n`, least significant first. -/
def decDigits (n : Nat) : List Nat := decDigitsAux n n

/-- JS `String(n)` for a natural number: its decimal digits. -/
def jsNatStr (n : Nat) : String :=
  if n = 0 then "0" else ⟨(decDigits n).reverse.map Nat.digitChar⟩

/-- `String(n).padStart(2, "0")`: pad a rendered number to two digits. -/
def pad2 (n : Nat) : String :=
  if n < 10 then "0" ++ jsNatStr n else jsNatStr n

/-- The `monthlyData` grouping key `YYYY-MM` built from a local year and a
one-based month. -/
def monthKey (y m : Nat) : String := jsNatStr y ++ "-" ++ pad2 m

/-- Local calendar extraction environment: `getFullYear` and the
zero-based `getMonth` of an epoch-ms timestamp. -/
structure DateEnv where
  localYear : Int → Nat
  localMonth0 : Int → Fin 12

/-- The grouping key of a timestamp. -/
def monthKeyOf (env : DateEnv) (t : Int) : String :=
  monthKey (env.localYear t) ((env.localMonth0 t : Nat) + 1)

/-- The per-month totals object built by the `monthlyData` pass. -/
def monthlyMap (env : DateEnv) (expenses : List Expense) :
    List (String × ℚ) :=
  expenses.foldl (fun m e => updateMap m (monthKeyOf env e.created_at) e.amount) []

/-- Value of a big-endian digit list (most significant digit first). -/
def beVal : List Nat → Nat
  | [] => 0
  | d :: ds => d * 10 ^ ds.length + beVal ds

/-! ## Theorems -/

/-- C1: a well-formed POST to the privileged delete-user operation always
attempts the authoritative identity deletion first; when that deletion
returns an error the operation aborts — the profile-row deletion is never
attempted and the profile table is left untouched — and only when it
succeeds is the profile-row deletion attempted, second. -/
theorem c1_identity_deleted_first_profile_second
    (b : DeleteBackend) (uid : String) (h : uid ≠ "") :
    (deleteUserServe "POST" (.ok ⟨some uid⟩) b).actions.head? =
        some (.authDelete uid)
    ∧ (∀ msg, b.authDeleteError = some msg →
        (deleteUserServe "POST" (.ok ⟨some uid⟩) b).profiles = b.profiles
        ∧ AdminAction.profileDelete uid ∉
            (deleteUserServe "POST" (.ok ⟨some uid⟩) b).actions)
    ∧ (b.authDeleteError = none →
        (deleteUserServe "POST" (.ok ⟨some uid⟩) b).actions =
          [.authDelete uid, .profileDelete uid]) := by
  obtain ⟨ae, te, ps⟩ := b
  refine ⟨?_, ?_, ?_⟩
  · cases ae <;> cases te <;> simp [deleteUserServe, idFalsy, h]
  · rintro msg rfl
    simp [deleteUserServe, idFalsy, h]
  · rintro rfl
    cases te <;> simp [deleteUserServe, idFalsy, h]

/-- Witness for C1 at a concrete failing identity deletion: the profile
row of user `u1` is untouched. -/
theorem c1_witness :
    (deleteUserServe "POST" (.ok ⟨some "u1"⟩)
        ⟨some "boom", none, [⟨"u1", some "a@b.c", none, some "t"⟩]⟩).profiles =
      [⟨"u1", some "a@b.c", none, some "t"⟩] :=
  ((c1_identity_deleted_first_profile_second
      ⟨some "boom", none, [⟨"u1", some "a@b.c", none, some "t"⟩]⟩ "u1"
      (by decide)).2.1 "boom" rfl).1

/-- The boolean pair-match of `list-users` holds exactly when the spec's
match predicate does. -/
theorem confirmedMatch_iff (a : AuthUser) (p : Profile) :
    confirmedMatch a p = true ↔
      ((a.id = p.id ∨
          ∃ ae pe, a.email = some ae ∧ p.email = some pe ∧
            lowerStr ae = lowerStr pe)
        ∧ ((∃ t, a.email_confirmed_at = some t ∧ t ≠ "")
            ∨ (∃ t, a.confirmed_at = some t ∧ t ≠ ""))) := by
  obtain ⟨aid, ae, aec, ac⟩ := a
  obtain ⟨pid, pe, pf, pc⟩ := p
  cases ae <;> cases pe <;> cases aec <;> cases ac <;>
    simp [confirmedMatch, isTruthy, and_comm]

/-- C2: the reconciliation keeps a profile row iff it came from the profile
table and some authoritative record matches it by id or case-insensitive
email and carries a confirmation timestamp. -/
theorem c2_reconciliation_keeps_iff_confirmed_match
    (authUsers : List AuthUser) (profiles : List Profile) (p : Profile) :
    p ∈ confirmedUsers authUsers profiles ↔
      p ∈ profiles ∧ specKeepsProfile authUsers p := by
  simp [confirmedUsers, List.mem_filter, List.any_eq_true, specKeepsProfile,
    confirmedMatch_iff]

/-- Witness for C2: a profile matching a confirmed authoritative record by
email only (case-insensitive, differing id) is kept. -/
theorem c2_witness :
    (⟨"p1", some "A@B.c", none, none⟩ : Profile) ∈
      confirmedUsers [⟨"u9", some "a@b.C", some "2024-01-01", none⟩]
        [⟨"p1", some "A@B.c", none, none⟩] :=
  (c2_reconciliation_keeps_iff_confirmed_match _ _ _).mpr
    ⟨List.mem_singleton_self _,
      ⟨"u9", some "a@b.C", some "2024-01-01", none⟩, List.mem_singleton_self _,
      Or.inr ⟨"a@b.C", "A@B.c", rfl, rfl, by decide⟩,
      Or.inl ⟨"2024-01-01", rfl, by decide⟩⟩

/-- C3: on the deployed user-deletion endpoint, a non-POST non-OPTIONS
method is answered 405; a POST whose body lacks a (truthy) id is answered
400; and a downstream failure of either privileged deletion is answered
500 with the failure's message in the envelope's error field. -/
theorem c3_delete_endpoint_statuses
    (b : DeleteBackend) (method : String) (body : Option DeleteReqBody) :
    (method ≠ "POST" → method ≠ "OPTIONS" →
      (apiDeleteUser method body b).status = 405)
    ∧ (∀ rb : DeleteReqBody, idFalsy rb.id = true →
        (apiDeleteUser "POST" (some rb) b).status = 400)
    ∧ (∀ uid msg, uid ≠ "" → b.authDeleteError = some msg →
        (apiDeleteUser "POST" (some ⟨some uid⟩) b).status = 500
        ∧ (apiDeleteUser "POST" (some ⟨some uid⟩) b).body =
            some ⟨false, some msg⟩)
    ∧ (∀ uid msg, uid ≠ "" →
        b.authDeleteError = none → b.tableDeleteError = some msg →
        (apiDeleteUser "POST" (some ⟨some uid⟩) b).status = 500
        ∧ (apiDeleteUser "POST" (some ⟨some uid⟩) b).body =
            some ⟨false, some msg⟩) := by
  obtain ⟨ae, te, ps⟩ := b
  refine ⟨?_, ?_, ?_, ?_⟩
  · intro h1 h2
    simp [apiDeleteUser, h1, h2]
  · intro rb hrb
    simp [apiDeleteUser, hrb]
  · rintro uid msg h rfl
    simp [apiDeleteUser, idFalsy, h]
  · rintro uid msg h rfl rfl
    simp [apiDeleteUser, idFalsy, h]

/-- Witness for C3 at concrete requests: a GET is answered 405, an id-less
POST 400, and POSTs whose identity (resp. profile) deletion fails are
answered 500 carrying the failure message. -/
theorem c3_witness :
    (apiDeleteUser "GET" none ⟨none, none, []⟩).status = 405
    ∧ (apiDeleteUser "POST" (some ⟨none⟩) ⟨none, none, []⟩).status = 400
    ∧ (apiDeleteUser "POST" (some ⟨some "u1"⟩)
        ⟨some "boom", none, []⟩).status = 500
    ∧ (apiDeleteUser "POST" (some ⟨some "u1"⟩)
        ⟨some "boom", none, []⟩).body = some ⟨false, some "boom"⟩
    ∧ (apiDeleteUser "POST" (some ⟨some "u1"⟩)
        ⟨none, some "dbfail", []⟩).status = 500 :=
  ⟨(c3_delete_endpoint_statuses ⟨none, none, []⟩ "GET" none).1
      (by decide) (by decide),
    (c3_delete_endpoint_statuses ⟨none, none, []⟩ "POST" (some ⟨none⟩)).2.1
      ⟨none⟩ rfl,
    ((c3_delete_endpoint_statuses ⟨some "boom", none, []⟩ "POST"
        (some ⟨some "u1"⟩)).2.2.1 "u1" "boom" (by decide) rfl).1,
    ((c3_delete_endpoint_statuses ⟨some "boom", none, []⟩ "POST"
        (some ⟨some "u1"⟩)).2.2.1 "u1" "boom" (by decide) rfl).2,
    ((c3_delete_endpoint_statuses ⟨none, some "dbfail", []⟩ "POST"
        (some ⟨some "u1"⟩)).2.2.2 "u1" "dbfail" (by decide) rfl rfl).1⟩

/-- Folding `+` over mapped values equals the starting value plus the sum
of the mapped list. -/
theorem foldl_add_eq_add_sum {α : Type} (f : α → ℚ) (l : List α) (s : ℚ) :
    l.foldl (fun acc x => acc + f x) s = s + (l.map f).sum := by
  induction l generalizing s with
  | nil => simp
  | cons a t ih => simp [ih, add_assoc]

/-- `sumValues` of a cons. -/
theorem sumValues_cons (k : String) (v : ℚ) (m : List (String × ℚ)) :
    sumValues ((k, v) :: m) = v + sumValues m := by
  simp [sumValues, foldl_add_eq_add_sum]

/-- One accumulating step adds its amount to the sum of the values. -/
theorem sumValues_updateMap (m : List (String × ℚ)) (k : String) (v : ℚ) :
    sumValues (updateMap m k v) = sumValues m + v := by
  induction m with
  | nil => simp [updateMap, sumValues]
  | cons p rest ih =>
    obtain ⟨k', v'⟩ := p
    by_cases h : k' = k
    · subst h
      simp [updateMap, sumValues_cons]
      ring
    · simp only [updateMap, if_neg h, sumValues_cons, ih]
      ring

/-- C6: the per-category totals partition the total — summing the values
of the category totals object yields the sum of all amounts. -/
theorem c6_category_totals_partition (expenses : List Expense) :
    sumValues (categoryMap expenses) = totalAmount expenses := by
  suffices h : ∀ (l : List Expense) (m : List (String × ℚ)),
      sumValues (l.foldl (fun m e => updateMap m e.category e.amount) m)
        = sumValues m + (l.map (fun e => e.amount)).sum by
    simpa [categoryMap, totalAmount, foldl_add_eq_add_sum, sumValues]
      using h expenses []
  intro l
  induction l with
  | nil => simp
  | cons e t ih =>
    intro m
    simp [List.foldl_cons, ih, sumValues_updateMap, add_assoc]

/-- C7: on the empty expense sequence the derived aggregates are all zero:
count 0, highest 0 (no empty-max error) and average 0 (no division by
zero). -/
theorem c7_empty_aggregates :
    count ([] : List Expense) = 0 ∧ highest [] = 0 ∧ avg [] = 0 := by
  refine ⟨rfl, rfl, ?_⟩
  simp [avg, count]

/-- C9: the reconciled admin list is a reordering of its input sorted
descending by profile creation timestamp, and a record without a creation
timestamp gets sort key epoch zero (so it sorts as oldest). -/
theorem c9_users_sorted_descending (parseMs : String → Int)
    (users : List Profile) :
    (sortUsers parseMs users).Perm users
    ∧ (sortUsers parseMs users).Pairwise
        (fun a b => userSortKey parseMs b ≤ userSortKey parseMs a)
    ∧ (∀ p : Profile, p.created_at = none → userSortKey parseMs p = 0) := by
  refine ⟨List.mergeSort_perm users _, ?_, ?_⟩
  · have h := @List.sorted_mergeSort Profile
      (fun a b => decide (userSortKey parseMs b ≤ userSortKey parseMs a))
      (fun a b c hab hbc => by
        simp only [decide_eq_true_eq] at *
        exact le_trans hbc hab)
      (fun a b => by
        simp only [Bool.or_eq_true, decide_eq_true_eq]
        exact le_total (userSortKey parseMs b) (userSortKey parseMs a))
      users
    exact h.imp (fun hab => of_decide_eq_true hab)
  · rintro ⟨pid, pe, pf, pc⟩ h
    simp only at h
    subst h
    rfl

/-- Witness for C9: a concrete missing-timestamp profile has sort key 0. -/
theorem c9_witness :
    userSortKey (fun _ => 7) ⟨"p", none, none, none⟩ = 0 :=
  (c9_users_sorted_descending (fun _ => 7) []).2.2 ⟨"p", none, none, none⟩ rfl

/-- The search step never invents rows: members of its output were fetched. -/
theorem mem_of_mem_searchStep {env : DashEnv} {t : String}
    {rows : List Expense} {e : Expense} (h : e ∈ searchStep env t rows) :
    e ∈ rows := by
  unfold searchStep at h
  split at h
  · exact (List.mem_filter.mp h).1
  · exact h

/-- C4: when an explicit start or end date is supplied the named mode is
ignored entirely (any two modes fetch identically), and every returned
expense's timestamp honours the supplied bounds — at least the start day's
00:00:00 and at most the end day's 23:59:59.999, each bound applied only
when that date is supplied. -/
theorem c4_explicit_range_overrides_mode (env : DashEnv) (email : String)
    (filter : FilterMode) (startDay endDay : Option Int)
    (searchTerm : String) (table : List Expense)
    (h : startDay.isSome ∨ endDay.isSome) :
    (∀ filter' : FilterMode,
      fetchExpenses env email filter' startDay endDay searchTerm table =
        fetchExpenses env email filter startDay endDay searchTerm table)
    ∧ (∀ e ∈ fetchExpenses env email filter startDay endDay searchTerm table,
        (∀ s, startDay = some s → s ≤ e.created_at)
        ∧ (∀ d, endDay = some d → e.created_at ≤ d + 86399999)) := by
  have hc : (startDay.isSome || endDay.isSome) = true := by
    rcases h with h | h <;> simp [h]
  constructor
  · intro f'
    simp [fetchExpenses, lowerBoundMs, upperBoundMs, hc]
  · intro e he
    have he' := mem_of_mem_searchStep he
    rw [List.mem_mergeSort, List.mem_filter] at he'
    have hr := he'.2
    simp only [inRange, lowerBoundMs, upperBoundMs, hc, if_pos,
      Bool.and_eq_true] at hr
    obtain ⟨-, hlow, hup⟩ := hr
    constructor
    · rintro s rfl
      simpa using hlow
    · rintro d rfl
      simpa using hup

/-- Witness for C4 at a concrete explicit start date: modes `week` and
`all` fetch identically. -/
theorem c4_witness :
    fetchExpenses ⟨0, 0, 0, fun _ => "", fun _ => ""⟩ "a@b" .week
        (some 100) none "" [] =
      fetchExpenses ⟨0, 0, 0, fun _ => "", fun _ => ""⟩ "a@b" .all
        (some 100) none "" [] :=
  (c4_explicit_range_overrides_mode ⟨0, 0, 0, fun _ => "", fun _ => ""⟩
    "a@b" .all (some 100) none "" [] (Or.inl rfl)).1 .week

/-- C10: a search term that is empty or whitespace-only leaves the fetched
list unchanged; the filter runs only for terms with a non-empty trim. -/
theorem c10_blank_search_is_identity (env : DashEnv) (searchTerm : String)
    (rows : List Expense) (h : jsTrim searchTerm = "") :
    searchStep env searchTerm rows = rows
    ∧ (∀ t : String, ¬(t = "" ∨ jsTrim t = "") →
        searchStep env t rows = rows.filter (matchesSearch env t)) := by
  constructor
  · have hcond : ¬(searchTerm ≠ "" ∧ jsTrim searchTerm ≠ "") := by
      rintro ⟨-, h2⟩
      exact h2 h
    simp [searchStep, hcond]
  · intro t ht
    push_neg at ht
    simp [searchStep, ht.1, ht.2]

/-- Witness for C10: a whitespace-only term returns a concrete fetched
list unchanged. -/
theorem c10_witness :
    searchStep ⟨0, 0, 0, fun _ => "", fun _ => ""⟩ "  "
        [⟨"1", "a@b", "lunch", 3, "Food", 0⟩] =
      [⟨"1", "a@b", "lunch", 3, "Food", 0⟩] :=
  (c10_blank_search_is_identity ⟨0, 0, 0, fun _ => "", fun _ => ""⟩ "  "
    [⟨"1", "a@b", "lunch", 3, "Food", 0⟩] (by decide)).1

/-- Unfolding: the parse of a lone closing quote. -/
theorem csvUnquoteBody_closing : csvUnquoteBody ['"'] = some [] := by
  rw [csvUnquoteBody.eq_def]
  simp

/-- Unfolding: the parse of a doubled double quote. -/
theorem csvUnquoteBody_doubled (rest : List Char) :
    csvUnquoteBody ('"' :: '"' :: rest) =
      (csvUnquoteBody rest).map (fun t => '"' :: t) := by
  conv_lhs => rw [csvUnquoteBody.eq_def]
  simp

/-- Unfolding: the parse of an ordinary character. -/
theorem csvUnquoteBody_other (c : Char) (rest : List Char) (h : ¬c = '"') :
    csvUnquoteBody (c :: rest) =
      (csvUnquoteBody rest).map (fun t => c :: t) := by
  conv_lhs => rw [csvUnquoteBody.eq_def]
  simp [h]

/-- Re-parsing an escaped body followed by the closing quote recovers the
original characters. -/
theorem csvUnquoteBody_escQuotes (l : List Char) :
    csvUnquoteBody (escQuotes l ++ ['"']) = some l := by
  induction l with
  | nil => simpa [escQuotes] using csvUnquoteBody_closing
  | cons c rest ih =>
    by_cases h : c = '"'
    · subst h
      simp [escQuotes, csvUnquoteBody_doubled, ih]
    · simp [escQuotes, h, csvUnquoteBody_other c _ h, ih]

/-- C5: for a description containing a double quote, the exported CSV
description field (quote-wrapped, embedded quotes doubled) re-parses under
standard CSV quoting to exactly the original description. -/
theorem c5_csv_description_roundtrip (desc : String)
    (_h : '"' ∈ desc.data) :
    csvUnquote (csvDescField desc) = some desc := by
  simp [csvUnquote, csvDescField, csvUnquoteBody_escQuotes]
  rfl

/-- Witness for C5 on a description with embedded double quotes. -/
theorem c5_witness :
    csvUnquote (csvDescField "say \"hi\"") = some "say \"hi\"" :=
  c5_csv_description_roundtrip "say \"hi\"" (by decide)

/-! ### Month-key machinery for C8 -/

theorem decDigitsAux_eq (fuel : Nat) :
    ∀ n : Nat, n ≤ fuel → decDigitsAux fuel n = Nat.digits 10 n := by
  induction fuel with
  | zero =>
    intro n hn
    obtain rfl : n = 0 := by omega
    simp [decDigitsAux]
  | succ fuel ih =>
    intro n hn
    cases n with
    | zero => simp [decDigitsAux]
    | succ m =>
      rw [decDigitsAux]
      have hdiv : (m + 1) / 10 ≤ fuel := by
        have := Nat.div_lt_self (Nat.succ_pos m) (by norm_num : 1 < 10)
        omega
      rw [ih _ hdiv, Nat.digits_def' (by norm_num : 1 < 10) (Nat.succ_pos m)]

theorem decDigits_eq (n : Nat) : decDigits n = Nat.digits 10 n :=
  decDigitsAux_eq n n le_rfl

theorem beVal_append_singleton (xs : List Nat) (d : Nat) :
    beVal (xs ++ [d]) = beVal xs * 10 + d := by
  induction xs with
  | nil => simp [beVal]
  | cons x xs ih =>
    simp only [List.cons_append, beVal, List.append_eq, List.length_append,
      List.length_cons, List.length_nil, ih, pow_succ]
    ring

theorem beVal_reverse (l : List Nat) : beVal l.reverse = Nat.ofDigits 10 l := by
  induction l with
  | nil => simp [beVal, Nat.ofDigits]
  | cons d l ih =>
    simp only [List.reverse_cons, beVal_append_singleton, ih, Nat.ofDigits_cons]
    ring

theorem beVal_lt (ds : List Nat) (h : ∀ d ∈ ds, d < 10) :
    beVal ds < 10 ^ ds.length := by
  induction ds with
  | nil => simp [beVal]
  | cons d t ih =>
    have hd : d < 10 := h d (List.mem_cons_self _ _)
    have ht := ih (fun x hx => h x (List.mem_cons_of_mem _ hx))
    simp only [beVal, List.length_cons, pow_succ]
    calc d * 10 ^ t.length + beVal t
        < d * 10 ^ t.length + 10 ^ t.length := Nat.add_lt_add_left ht _
      _ = (d + 1) * 10 ^ t.length := by ring
      _ ≤ 10 * 10 ^ t.length := Nat.mul_le_mul_right _ (by omega)
      _ = 10 ^ t.length * 10 := by ring

theorem beVal_cons_lt_of_head_lt {d₁ d₂ : Nat} {t₁ t₂ : List Nat}
    (hlen : t₁.length = t₂.length) (h : d₁ < d₂) (ht₁ : ∀ d ∈ t₁, d < 10) :
    beVal (d₁ :: t₁) < beVal (d₂ :: t₂) := by
  have hB : beVal t₁ < 10 ^ t₂.length := by
    rw [← hlen]; exact beVal_lt t₁ ht₁
  simp only [beVal, hlen]
  calc d₁ * 10 ^ t₂.length + beVal t₁
      < d₁ * 10 ^ t₂.length + 10 ^ t₂.length := Nat.add_lt_add_left hB _
    _ = (d₁ + 1) * 10 ^ t₂.length := by ring
    _ ≤ d₂ * 10 ^ t₂.length := Nat.mul_le_mul_right _ (by omega)
    _ ≤ d₂ * 10 ^ t₂.length + beVal t₂ := Nat.le_add_right _ _

theorem digitChar_lt_iff :
    ∀ d₁ : Nat, d₁ < 10 → ∀ d₂ : Nat, d₂ < 10 →
      (Nat.digitChar d₁ < Nat.digitChar d₂ ↔ d₁ < d₂) := by decide

theorem digitChar_inj_iff :
    ∀ d₁ : Nat, d₁ < 10 → ∀ d₂ : Nat, d₂ < 10 →
      (Nat.digitChar d₁ = Nat.digitChar d₂ ↔ d₁ = d₂) := by decide

theorem lex_cons_inv {α : Type} {r : α → α → Prop} {a b : α}
    {l₁ l₂ : List α} (h : List.Lex r (a :: l₁) (b :: l₂)) :
    r a b ∨ (a = b ∧ List.Lex r l₁ l₂) := by
  cases h with
  | rel h => exact Or.inl h
  | cons h => exact Or.inr ⟨rfl, h⟩

theorem lex_map_digitChar_iff_beVal (ds₁ : List Nat) :
    ∀ ds₂ : List Nat, ds₁.length = ds₂.length →
      (∀ d ∈ ds₁, d < 10) → (∀ d ∈ ds₂, d < 10) →
      (List.Lex (· < ·) (ds₁.map Nat.digitChar) (ds₂.map Nat.digitChar) ↔
        beVal ds₁ < beVal ds₂) := by
  induction ds₁ with
  | nil =>
    intro ds₂ hlen _ _
    obtain rfl : ds₂ = [] := by
      cases ds₂ with
      | nil => rfl
      | cons _ _ => simp at hlen
    simp
  | cons d₁ t₁ ih =>
    intro ds₂ hlen h1 h2
    cases ds₂ with
    | nil => simp at hlen
    | cons d₂ t₂ =>
      have hlen' : t₁.length = t₂.length := by simpa using hlen
      have hd₁ : d₁ < 10 := h1 _ (List.mem_cons_self _ _)
      have hd₂ : d₂ < 10 := h2 _ (List.mem_cons_self _ _)
      have ht₁ : ∀ d ∈ t₁, d < 10 := fun x hx => h1 x (List.mem_cons_of_mem _ hx)
      have ht₂ : ∀ d ∈ t₂, d < 10 := fun x hx => h2 x (List.mem_cons_of_mem _ hx)
      rcases lt_trichotomy d₁ d₂ with hlt | heq | hgt
      · exact iff_of_true
          (List.Lex.rel ((digitChar_lt_iff d₁ hd₁ d₂ hd₂).mpr hlt))
          (beVal_cons_lt_of_head_lt hlen' hlt ht₁)
      · subst heq
        simp only [List.map_cons]
        rw [List.Lex.cons_iff, ih t₂ hlen' ht₁ ht₂]
        simp only [beVal, hlen']
        exact (add_lt_add_iff_left _).symm
      · apply iff_of_false
        · intro hl
          rcases lex_cons_inv hl with hr | ⟨he, -⟩
          · exact absurd ((digitChar_lt_iff d₁ hd₁ d₂ hd₂).mp hr) (by omega)
          · exact absurd ((digitChar_inj_iff d₁ hd₁ d₂ hd₂).mp he) (by omega)
        · exact not_lt.mpr (beVal_cons_lt_of_head_lt hlen'.symm hgt ht₂).le

theorem map_digitChar_inj (ds₁ : List Nat) :
    ∀ ds₂ : List Nat, (∀ d ∈ ds₁, d < 10) → (∀ d ∈ ds₂, d < 10) →
      ds₁.map Nat.digitChar = ds₂.map Nat.digitChar → ds₁ = ds₂ := by
  induction ds₁ with
  | nil =>
    intro ds₂ _ _ h
    cases ds₂ with
    | nil => rfl
    | cons _ _ => simp at h
  | cons d₁ t₁ ih =>
    intro ds₂ h1 h2 h
    cases ds₂ with
    | nil => simp at h
    | cons d₂ t₂ =>
      simp only [List.map_cons, List.cons.injEq] at h
      have hd : d₁ = d₂ :=
        (digitChar_inj_iff d₁ (h1 _ (List.mem_cons_self _ _)) d₂
          (h2 _ (List.mem_cons_self _ _))).mp h.1
      rw [hd, ih t₂ (fun x hx => h1 x (List.mem_cons_of_mem _ hx))
        (fun x hx => h2 x (List.mem_cons_of_mem _ hx)) h.2]

theorem lex_append_iff {α : Type} [LinearOrder α] (xs : List α) :
    ∀ (ys t u : List α), xs.length = ys.length →
      (List.Lex (· < ·) (xs ++ t) (ys ++ u) ↔
        (List.Lex (· < ·) xs ys ∨ (xs = ys ∧ List.Lex (· < ·) t u))) := by
  induction xs with
  | nil =>
    intro ys t u hlen
    obtain rfl : ys = [] := by
      cases ys with
      | nil => rfl
      | cons _ _ => simp at hlen
    simp only [List.nil_append]
    constructor
    · intro h
      right
      exact ⟨by simp, h⟩
    · rintro (h | ⟨-, h⟩)
      · exact absurd h (List.Lex.not_nil_right _ _)
      · exact h
  | cons x xs ih =>
    intro ys t u hlen
    cases ys with
    | nil => simp at hlen
    | cons y ys =>
      have hlen' : xs.length = ys.length := by simpa using hlen
      simp only [List.cons_append]
      rcases lt_trichotomy x y with hlt | heq | hgt
      · exact iff_of_true (List.Lex.rel hlt) (Or.inl (List.Lex.rel hlt))
      · subst heq
        rw [List.Lex.cons_iff, ih ys t u hlen', List.Lex.cons_iff]
        simp [List.cons.injEq]
      · apply iff_of_false
        · intro h
          rcases lex_cons_inv h with hr | ⟨he, -⟩
          · exact lt_asymm hgt hr
          · exact (ne_of_gt hgt) he
        · rintro (h | ⟨he, -⟩)
          · rcases lex_cons_inv h with hr | ⟨he, -⟩
            · exact lt_asymm hgt hr
            · exact (ne_of_gt hgt) he
          · rw [List.cons.injEq] at he
            exact (ne_of_gt hgt) he.1

theorem string_lt_iff_lex (s t : String) :
    s < t ↔ List.Lex (· < ·) s.data t.data := by
  rw [String.lt_iff_toList_lt]
  exact Iff.rfl

theorem digits_lt_ten (y : Nat) : ∀ d ∈ (Nat.digits 10 y).reverse, d < 10 :=
  fun _ hd => Nat.digits_lt_base (by norm_num) (List.mem_reverse.mp hd)

theorem digits_len_four {y : Nat} (h1 : 1000 ≤ y) (h2 : y ≤ 9999) :
    (Nat.digits 10 y).length = 4 := by
  have hy : y ≠ 0 := by omega
  rw [Nat.digits_len 10 y (by norm_num) hy]
  have hlog : Nat.log 10 y = 3 :=
    Nat.log_eq_of_pow_le_of_lt_pow (by norm_num; omega) (by norm_num; omega)
  omega

theorem jsNatStr_data_of_pos {y : Nat} (hy : y ≠ 0) :
    (jsNatStr y).data = (Nat.digits 10 y).reverse.map Nat.digitChar := by
  simp [jsNatStr, hy, decDigits_eq]

theorem jsNatStr_data_len_four {y : Nat} (h1 : 1000 ≤ y) (h2 : y ≤ 9999) :
    (jsNatStr y).data.length = 4 := by
  rw [jsNatStr_data_of_pos (by omega : y ≠ 0)]
  simp [digits_len_four h1 h2]

theorem beVal_digitsRev (y : Nat) :
    beVal (Nat.digits 10 y).reverse = y := by
  rw [beVal_reverse, Nat.ofDigits_digits]

theorem year_lex_iff {y₁ y₂ : Nat} (ha : 1000 ≤ y₁) (hb : y₁ ≤ 9999)
    (hc : 1000 ≤ y₂) (hd : y₂ ≤ 9999) :
    (List.Lex (· < ·) (jsNatStr y₁).data (jsNatStr y₂).data ↔ y₁ < y₂) := by
  rw [jsNatStr_data_of_pos (by omega : y₁ ≠ 0),
    jsNatStr_data_of_pos (by omega : y₂ ≠ 0),
    lex_map_digitChar_iff_beVal _ _
      (by simp [digits_len_four ha hb, digits_len_four hc hd])
      (digits_lt_ten y₁) (digits_lt_ten y₂),
    beVal_digitsRev, beVal_digitsRev]

theorem year_eq_iff {y₁ y₂ : Nat} (ha : 1000 ≤ y₁) (hb : y₁ ≤ 9999)
    (hc : 1000 ≤ y₂) (hd : y₂ ≤ 9999) :
    ((jsNatStr y₁).data = (jsNatStr y₂).data ↔ y₁ = y₂) := by
  constructor
  · intro h
    rw [jsNatStr_data_of_pos (by omega : y₁ ≠ 0),
      jsNatStr_data_of_pos (by omega : y₂ ≠ 0)] at h
    have := map_digitChar_inj _ _ (digits_lt_ten y₁) (digits_lt_ten y₂) h
    have := congrArg beVal this
    rwa [beVal_digitsRev, beVal_digitsRev] at this
  · rintro rfl
    rfl

theorem pad2_lex_iff (m₁ m₂ : Nat) (ha : 1 ≤ m₁) (hb : m₁ ≤ 12)
    (hc : 1 ≤ m₂) (hd : m₂ ≤ 12) :
    (List.Lex (· < ·) (pad2 m₁).data (pad2 m₂).data ↔ m₁ < m₂) := by
  interval_cases m₁ <;> interval_cases m₂ <;> decide

theorem pad2_eq_iff (m₁ m₂ : Nat) (ha : 1 ≤ m₁) (hb : m₁ ≤ 12)
    (hc : 1 ≤ m₂) (hd : m₂ ≤ 12) : (pad2 m₁ = pad2 m₂ ↔ m₁ = m₂) := by
  interval_cases m₁ <;> interval_cases m₂ <;> decide

theorem pad2_len (m : Nat) (ha : 1 ≤ m) (hb : m ≤ 12) :
    (pad2 m).length = 2 := by
  interval_cases m <;> decide

theorem monthKey_data (y m : Nat) :
    (monthKey y m).data = (jsNatStr y).data ++ ('-' :: (pad2 m).data) := by
  show ((jsNatStr y ++ "-") ++ pad2 m).data = _
  rw [String.data_append, String.data_append, List.append_assoc]
  rfl

theorem monthKey_lt_iff {y₁ m₁ y₂ m₂ : Nat}
    (ha : 1000 ≤ y₁) (hb : y₁ ≤ 9999) (hc : 1000 ≤ y₂) (hd : y₂ ≤ 9999)
    (he : 1 ≤ m₁) (hf : m₁ ≤ 12) (hg : 1 ≤ m₂) (hh : m₂ ≤ 12) :
    (monthKey y₁ m₁ < monthKey y₂ m₂ ↔
      (y₁ < y₂ ∨ (y₁ = y₂ ∧ m₁ < m₂))) := by
  rw [string_lt_iff_lex, monthKey_data, monthKey_data,
    lex_append_iff _ _ _ _
      (by rw [jsNatStr_data_len_four ha hb, jsNatStr_data_len_four hc hd]),
    List.Lex.cons_iff, year_lex_iff ha hb hc hd,
    year_eq_iff ha hb hc hd, pad2_lex_iff m₁ m₂ he hf hg hh]

theorem monthKey_le_iff {y₁ m₁ y₂ m₂ : Nat}
    (ha : 1000 ≤ y₁) (hb : y₁ ≤ 9999) (hc : 1000 ≤ y₂) (hd : y₂ ≤ 9999)
    (he : 1 ≤ m₁) (hf : m₁ ≤ 12) (hg : 1 ≤ m₂) (hh : m₂ ≤ 12) :
    (monthKey y₁ m₁ ≤ monthKey y₂ m₂ ↔
      (y₁ < y₂ ∨ (y₁ = y₂ ∧ m₁ ≤ m₂))) := by
  rw [← not_lt, monthKey_lt_iff hc hd ha hb hg hh he hf]
  omega

theorem monthKey_len {y m : Nat}
    (ha : 1000 ≤ y) (hb : y ≤ 9999) (hc : 1 ≤ m) (hd : m ≤ 12) :
    (monthKey y m).length = 7 := by
  show ((jsNatStr y ++ "-") ++ pad2 m).length = 7
  rw [String.length_append, String.length_append]
  have h1 : (jsNatStr y).length = 4 := by
    show (jsNatStr y).data.length = 4
    exact jsNatStr_data_len_four ha hb
  rw [h1, pad2_len m hc hd]
  decide

/-- A key of the object after one accumulating step is an old key or the
inserted key. -/
theorem mem_keys_updateMap {m : List (String × ℚ)} {k : String} {v : ℚ}
    {k' : String} (h : k' ∈ (updateMap m k v).map Prod.fst) :
    k' ∈ m.map Prod.fst ∨ k' = k := by
  induction m with
  | nil =>
    simp only [updateMap, List.map_cons, List.map_nil, List.mem_cons,
      List.not_mem_nil, or_false] at h
    exact Or.inr h
  | cons p rest ih =>
    obtain ⟨k₀, v₀⟩ := p
    by_cases hk : k₀ = k
    · subst hk
      have h2 : k' = k₀ ∨ k' ∈ List.map Prod.fst rest := by
        simpa [updateMap] using h
      rcases h2 with h2 | h2
      · exact Or.inr h2
      · exact Or.inl (by simp [h2])
    · have h2 : k' = k₀ ∨ k' ∈ List.map Prod.fst (updateMap rest k v) := by
        simpa [updateMap, hk] using h
      rcases h2 with h2 | h2
      · exact Or.inl (by simp [h2])
      · rcases ih h2 with h3 | h3
        · exact Or.inl (by simp [h3])
        · exact Or.inr h3

/-- Every key of the monthly totals object is the month key of some
expense. -/
theorem mem_keys_monthlyMap {env : DateEnv} {es : List Expense} {k : String}
    (h : k ∈ (monthlyMap env es).map Prod.fst) :
    ∃ e ∈ es, k = monthKeyOf env e.created_at := by
  suffices hgen : ∀ (l : List Expense) (m₀ : List (String × ℚ)),
      k ∈ ((l.foldl (fun m e => updateMap m (monthKeyOf env e.created_at)
          e.amount) m₀).map Prod.fst) →
        k ∈ m₀.map Prod.fst ∨ ∃ e ∈ l, k = monthKeyOf env e.created_at by
    rcases hgen es [] h with h' | h'
    · simp at h'
    · exact h'
  intro l
  induction l with
  | nil => intro m₀ h₀; exact Or.inl h₀
  | cons e t ih =>
    intro m₀ h₀
    rw [List.foldl_cons] at h₀
    rcases ih _ h₀ with h' | h'
    · rcases mem_keys_updateMap h' with h'' | h''
      · exact Or.inl h''
      · exact Or.inr ⟨e, List.mem_cons_self _ _, h''⟩
    · obtain ⟨e', he', hk⟩ := h'
      exact Or.inr ⟨e', List.mem_cons_of_mem _ he', hk⟩

/-- C8: every key of the monthly totals object is a seven-character
zero-padded `YYYY-MM` month key, and on such keys the lexicographic string
order coincides with the chronological order of the underlying months. -/
theorem c8_month_keys_lex_iff_chronological (env : DateEnv)
    (es : List Expense)
    (hy : ∀ e ∈ es, 1000 ≤ env.localYear e.created_at ∧
      env.localYear e.created_at ≤ 9999) :
    (∀ k ∈ (monthlyMap env es).map Prod.fst, ∃ y m,
        1000 ≤ y ∧ y ≤ 9999 ∧ 1 ≤ m ∧ m ≤ 12 ∧ k = monthKey y m ∧
          k.length = 7)
    ∧ (∀ y₁ m₁ y₂ m₂ : Nat, 1000 ≤ y₁ → y₁ ≤ 9999 → 1000 ≤ y₂ →
        y₂ ≤ 9999 → 1 ≤ m₁ → m₁ ≤ 12 → 1 ≤ m₂ → m₂ ≤ 12 →
        (monthKey y₁ m₁ ≤ monthKey y₂ m₂ ↔
          (y₁ < y₂ ∨ (y₁ = y₂ ∧ m₁ ≤ m₂)))) := by
  constructor
  · intro k hk
    obtain ⟨e, he, rfl⟩ := mem_keys_monthlyMap hk
    obtain ⟨h1, h2⟩ := hy e he
    refine ⟨env.localYear e.created_at, (env.localMonth0 e.created_at : Nat) + 1,
      h1, h2, by omega, ?_, rfl, ?_⟩
    · have := (env.localMonth0 e.created_at).isLt
      omega
    · have hm := (env.localMonth0 e.created_at).isLt
      exact monthKey_len h1 h2 (by omega) (by omega)
  · intro y₁ m₁ y₂ m₂ ha hb hc hd he hf hg hh
    exact monthKey_le_iff ha hb hc hd he hf hg hh

/-- Witness for C8 at concrete keys: `2023-12` sorts before `2024-02`,
and `2024-02` before `2024-11`. -/
theorem c8_witness :
    (monthKey 2023 12 ≤ monthKey 2024 2 ↔
      (2023 < 2024 ∨ (2023 = 2024 ∧ 12 ≤ 2)))
    ∧ (monthKey 2024 2 ≤ monthKey 2024 11 ↔
      (2024 < 2024 ∨ (2024 = 2024 ∧ 2 ≤ 11))) :=
  ⟨(c8_month_keys_lex_iff_chronological ⟨fun _ => 2023, fun _ => ⟨0, by decide⟩⟩
      [] (by simp)).2 2023 12 2024 2 (by decide) (by decide) (by decide)
      (by decide) (by decide) (by decide) (by decide) (by decide),
    (c8_month_keys_lex_iff_chronological ⟨fun _ => 2023, fun _ => ⟨0, by decide⟩⟩
      [] (by simp)).2 2024 2 2024 11 (by decide) (by decide) (by decide)
      (by decide) (by decide) (by decide) (by decide) (by decide)⟩

end ExpensesTracker

